import Mathlib

/-!
Verification of the Cookbook recipe catalog (src/main.c) against its
natural-language specification.

The C program keeps a doubly-linked list of `Receipt` nodes sorted by a
case-insensitive comparator, assigns ids from a `static uint16_t` counter,
and persists records to a two-line-per-record text file.  We embed the
program shallowly: C strings become lists of byte values (`List Nat`,
bytes are the characters before the terminating NUL, hence nonzero in any
state the program can build), the linked list becomes a `List Receipt`
in head-to-tail order, the static counter and the file side effects become
explicit values threaded through the operations.
-/

namespace Cookbook

/-- Model of C `tolower` in the C locale on byte values: ASCII capitals
fold to lower case, every other byte is unchanged. -/
def tolower (c : Nat) : Nat := if 65 ≤ c ∧ c ≤ 90 then c + 32 else c

/-- Conversion of an `int` value to `int8_t` (two's complement wrap),
applied by the C compiler at each `return` of `case_insensitive_compare`,
whose declared return type is `int8_t`. -/
def wrap8 (v : Int) : Int := (v + 128) % 256 - 128

/-- The untruncated comparison loop of `case_insensitive_compare`
(src/main.c:635-644): walk both strings while both have characters,
return the difference of the folded bytes at the first mismatch, or the
difference of the folded terminators when one string ends. -/
def cicRaw : List Nat → List Nat → Int
  | [], [] => 0
  | [], c2 :: _ => -(tolower c2 : Int)
  | c1 :: _, [] => (tolower c1 : Int)
  | c1 :: s1, c2 :: s2 =>
    if tolower c1 = tolower c2 then cicRaw s1 s2
    else (tolower c1 : Int) - (tolower c2 : Int)

/-- C `case_insensitive_compare` (src/main.c:635-644): the comparison
loop with the result truncated to `int8_t` at the return. -/
def case_insensitive_compare (s1 s2 : List Nat) : Int := wrap8 (cicRaw s1 s2)

/-- One catalog record (C struct `Receipt`, src/main.c:51-57); the
`next`/`prev` links are represented by the position in a `List Receipt`. -/
structure Receipt where
  id : Nat
  name : List Nat
  receipt : List Nat
deriving DecidableEq, Repr

/-- Ordering relation used for the sort invariant: the comparator is
non-positive on an (earlier, later) pair of entries. -/
def name_le (a b : Receipt) : Prop := case_insensitive_compare a.name b.name ≤ 0

instance name_le_dec : DecidableRel name_le := fun a b =>
  inferInstanceAs (Decidable (case_insensitive_compare a.name b.name ≤ 0))

/-- The scan loop of `insert_alphabetically` (src/main.c:673-686):
`current` starts at the head; the candidate is inserted after the last
node reached by advancing while the next node compares strictly less
than the candidate.  This function is the list after `current`. -/
def insert_rest (r : Receipt) : List Receipt → List Receipt
  | [] => [r]
  | x :: t =>
    if case_insensitive_compare x.name r.name < 0 then x :: insert_rest r t
    else r :: x :: t

/-- C `insert_alphabetically` (src/main.c:656-689): empty list makes the
candidate the sole element; a candidate strictly below the head becomes
the new head; otherwise the scan loop inserts it after `current`. -/
def insert_alphabetically (head : List Receipt) (r : Receipt) : List Receipt :=
  match head with
  | [] => [r]
  | h :: t =>
    if case_insensitive_compare r.name h.name < 0 then r :: h :: t
    else h :: insert_rest r t

/-- The high-water-mark scan inside `get_new_id` (src/main.c:512-518):
for each node in list order, if `id >= next_id` then `next_id = id + 1`
(a `uint16_t` increment, hence the modulus). -/
def scan_high_water : Nat → List Receipt → Nat
  | n, [] => n
  | n, r :: t => scan_high_water (if n ≤ r.id then (r.id + 1) % 65536 else n) t

/-- C `get_new_id` (src/main.c:508-521) with the `static uint16_t
next_id` made explicit: takes the list and the current counter, returns
the issued id and the counter after the post-increment (mod 2^16). -/
def get_new_id (head : List Receipt) (next_id : Nat) : Nat × Nat :=
  let n := if next_id = 0 ∧ head ≠ [] then scan_high_water 0 head else next_id
  (n, (n + 1) % 65536)

/-- The file side effect of one catalog operation: nothing, a single
appended record (`save_receipt_to_file`) or a full rewrite
(`rewrite_receipts_to_file`). -/
inductive FileOp where
  | none : FileOp
  | append (name receipt : List Nat) : FileOp
  | rewrite (list : List Receipt) : FileOp
deriving DecidableEq, Repr

/-- The in-memory state the program threads between operations: the list
headed by `head` plus the static id counter. -/
structure CatalogState where
  list : List Receipt
  next_id : Nat
deriving DecidableEq, Repr

/-- C `create_receipt` (src/main.c:593-623) with `malloc` assumed to
succeed: truncate both fields (`strncpy` with forced termination keeps
at most `LEN_NAME-1 = 29` resp. `LEN_REC-1 = 999` bytes), draw an id,
insert alphabetically, and append the new record to the file.  Note the
function performs no emptiness check on `name`. -/
def create_receipt (s : CatalogState) (name receipt : List Nat) :
    CatalogState × FileOp :=
  let p := get_new_id s.list s.next_id
  let r : Receipt := ⟨p.1, name.take 29, receipt.take 999⟩
  (⟨insert_alphabetically s.list r, p.2⟩, FileOp.append r.name r.receipt)

/-- The in-place field update applied to the found node inside
`update_receipt` (src/main.c:756-768): a non-NULL non-empty name that
differs (byte-wise `strcmp`) from the current one is copied (truncated
to 29 bytes) and flags `name_changed`; a non-NULL non-empty receipt is
copied (truncated to 999 bytes) unconditionally. -/
def apply_upd (r : Receipt) (nm rc : Option (List Nat)) : Receipt × Bool :=
  let pn : List Nat × Bool :=
    match nm with
    | Option.none => (r.name, false)
    | Option.some n =>
      if n ≠ [] ∧ n ≠ r.name then (n.take 29, true) else (r.name, false)
  let rr : List Nat :=
    match rc with
    | Option.none => r.receipt
    | Option.some c => if c ≠ [] then c.take 999 else r.receipt
  (⟨r.id, pn.1, rr⟩, pn.2)

/-- The search loop of `update_receipt` (src/main.c:752-772): find the
first node with the given id and update it in place; returns the updated
list, the updated node and the `name_changed` flag, or `none` when no
node has the id. -/
def update_scan (rid : Nat) (nm rc : Option (List Nat)) :
    List Receipt → Option (List Receipt × Receipt × Bool)
  | [] => Option.none
  | r :: t =>
    if r.id = rid then
      let p := apply_upd r nm rc
      Option.some (p.1 :: t, p.1, p.2)
    else
      match update_scan rid nm rc t with
      | Option.none => Option.none
      | Option.some (t', x, c) => Option.some (r :: t', x, c)

/-- C `detach_receipt` applied to the first node carrying the given id,
as both `update_receipt` and `delete_receipt` do after their search
loops: unlink that node, keeping the rest in order. -/
def remove_first (rid : Nat) : List Receipt → List Receipt
  | [] => []
  | r :: t => if r.id = rid then t else r :: remove_first rid t

/-- C `update_receipt` (src/main.c:740-788): both arguments NULL is an
immediate no-op; otherwise scan by id, and if the name changed detach
the node and reinsert it alphabetically.  The file is rewritten in full
on every path that passes the initial NULL check, found or not. -/
def update_receipt (head : List Receipt) (rid : Nat)
    (nm rc : Option (List Nat)) : List Receipt × FileOp :=
  if nm = Option.none ∧ rc = Option.none then (head, FileOp.none)
  else
    match update_scan rid nm rc head with
    | Option.none => (head, FileOp.rewrite head)
    | Option.some (l', r', changed) =>
      if changed then
        let l2 := insert_alphabetically (remove_first rid l') r'
        (l2, FileOp.rewrite l2)
      else (l', FileOp.rewrite l')

/-- C `delete_receipt` (src/main.c:800-830): empty list or id not found
return the list unchanged with no file operation at all; a found node is
detached and the file rewritten. -/
def delete_receipt (head : List Receipt) (rid : Nat) :
    List Receipt × FileOp :=
  match head with
  | [] => ([], FileOp.none)
  | _ :: _ =>
    if head.any (fun r => r.id == rid) then
      let l := remove_first rid head
      (l, FileOp.rewrite l)
    else (head, FileOp.none)

/-- One catalog mutation issued by the menu after load. -/
inductive Mutation where
  | create (name receipt : List Nat) : Mutation
  | update (rid : Nat) (nm rc : Option (List Nat)) : Mutation
  | delete (rid : Nat) : Mutation

/-- Apply one mutation to the catalog state; only `create_receipt`
calls `get_new_id`, so only the create mutation touches the id
counter. -/
def apply_mutation (s : CatalogState) : Mutation → CatalogState
  | Mutation.create n r => (create_receipt s n r).1
  | Mutation.update rid nm rc => ⟨(update_receipt s.list rid nm rc).1, s.next_id⟩
  | Mutation.delete rid => ⟨(delete_receipt s.list rid).1, s.next_id⟩

/-- Apply a sequence of mutations left to right. -/
def apply_mutations (s : CatalogState) : List Mutation → CatalogState
  | [] => s
  | m :: ms => apply_mutations (apply_mutation s m) ms

/-! ### Persistence adapter -/

/-- Bytes of the header written before a name, `"Name: "`. -/
def name_hdr : List Nat := [78, 97, 109, 101, 58, 32]

/-- Bytes of the header written before a body, `"Receipt: "`. -/
def receipt_hdr : List Nat := [82, 101, 99, 101, 105, 112, 116, 58, 32]

/-- Bytes of the marker `"Name:"` that `load_receipts` searches for with
`strstr` to begin a record (src/main.c:458). -/
def name_marker : List Nat := [78, 97, 109, 101, 58]

/-- Bytes of the marker `"Receipt:"` that `load_receipts` searches for
with `strstr` to complete a record (src/main.c:473). -/
def receipt_marker : List Nat := [82, 101, 99, 101, 105, 112, 116, 58]

/-- One C `fgets` call on a buffer of `n + 1` bytes: consume at most `n`
characters, stopping after (and keeping) the first newline.  Returns the
chunk read and the rest of the stream. -/
def read_line : Nat → List Nat → List Nat × List Nat
  | 0, s => ([], s)
  | _ + 1, [] => ([], [])
  | n + 1, c :: s =>
    if c = 10 then ([c], s)
    else
      let p := read_line n s
      (c :: p.1, p.2)

/-- The `while(fgets(buff, sizeof(buff), fptr))` loop of `load_receipts`
viewed as a splitter of the file bytes into the successive `fgets`
chunks; the buffer is `LEN_REC = 1000` bytes so each call reads at most
999 characters.  Fuel bounds the iteration count; each call on a
non-empty stream consumes at least one byte, so `s.length` fuel is
always enough. -/
def split_lines_fuel : Nat → List Nat → List (List Nat)
  | 0, _ => []
  | _ + 1, [] => []
  | f + 1, c :: t =>
    let p := read_line 999 (c :: t)
    p.1 :: split_lines_fuel f p.2

/-- The successive `fgets` chunks of a whole file. -/
def split_lines (s : List Nat) : List (List Nat) := split_lines_fuel s.length s

/-- C `trim_newline` (src/main.c:404-406): truncate the string at the
first carriage return or newline. -/
def trim_line (l : List Nat) : List Nat :=
  l.takeWhile (fun c => !(c == 10 || c == 13))

/-- Whether the pattern matches at the very start of the string (the
inner loop of a `strstr` scan). -/
def marker_at_head : List Nat → List Nat → Bool
  | [], _ => true
  | _ :: _, [] => false
  | p :: ps, c :: cs => p == c && marker_at_head ps cs

/-- C `strstr(s, pat) != NULL`: the pattern occurs somewhere in the
string. -/
def strstr_found (pat : List Nat) : List Nat → Bool
  | [] => marker_at_head pat []
  | c :: cs => marker_at_head pat (c :: cs) || strstr_found pat cs

/-- The parsing loop of `load_receipts` (src/main.c:453-483): each
trimmed line containing `"Name:"` starts a pending record whose name is
the line from offset `LEN_PREFIX_NAME = 6`, truncated to 29 bytes; a
line containing `"Receipt:"` while a record is pending completes it
(body from offset `LEN_PREFIX_RECEIPT = 9`, truncated to 999 bytes),
assigns it the running record count as id, and inserts it
alphabetically; any other line is skipped.  A pending record left at end
of file is discarded. -/
def parse_lines : List (List Nat) → Option (List Nat) → Nat → List Receipt →
    List Receipt
  | [], _, _, head => head
  | raw :: ls, tmp, n, head =>
    let line := trim_line raw
    if strstr_found name_marker line then
      parse_lines ls (Option.some ((line.drop 6).take 29)) n head
    else
      match tmp with
      | Option.some nm =>
        if strstr_found receipt_marker line then
          parse_lines ls Option.none (n + 1)
            (insert_alphabetically head ⟨n, nm, (line.drop 9).take 999⟩)
        else parse_lines ls tmp n head
      | Option.none => parse_lines ls Option.none n head

/-- C `load_receipts` (src/main.c:436-497) on the bytes of an existing
store file: split into `fgets` chunks and run the parsing loop from an
empty list and record count 0. -/
def load_receipts (file : List Nat) : List Receipt :=
  parse_lines (split_lines file) Option.none 0 []

/-- The bytes `rewrite_receipts_to_file` (src/main.c:562-579) writes:
for each node in list order, `"Name: " ++ name ++ "\n"` then
`"Receipt: " ++ receipt ++ "\n"`. -/
def rewrite_receipts_to_file (head : List Receipt) : List Nat :=
  (head.map
    (fun r => name_hdr ++ r.name ++ [10] ++ receipt_hdr ++ r.receipt ++ [10])).flatten

/-- The byte content of a store file holding the given (name, body)
records in order, in the two-line framing. -/
def render_file (recs : List (List Nat × List Nat)) : List Nat :=
  (recs.map
    (fun p => name_hdr ++ p.1 ++ [10] ++ receipt_hdr ++ p.2 ++ [10])).flatten

/-- The records of a file paired with the ids `load_receipts` assigns:
the k-th record (0-based, in file order) gets id `n + k`. -/
def recs_with_ids : List (List Nat × List Nat) → Nat → List Receipt
  | [], _ => []
  | p :: t, n => ⟨n, p.1, p.2⟩ :: recs_with_ids t (n + 1)

/-- The net effect of the parsing loop on well-formed input: insert each
record alphabetically with sequential ids (used as the specification the
parsing loop is proved to meet). -/
def load_pure : List (List Nat × List Nat) → Nat → List Receipt → List Receipt
  | [], _, head => head
  | p :: t, n, head => load_pure t (n + 1) (insert_alphabetically head ⟨n, p.1, p.2⟩)

/-! ### Id generator runs and the menu add path -/

/-- The ids issued by successive calls to `get_new_id`, given the list
argument of each call and the initial counter. -/
def run_gen : List (List Receipt) → Nat → List Nat
  | [], _ => []
  | h :: hs, c =>
    let p := get_new_id h c
    p.1 :: run_gen hs p.2

/-- The trace of successive `get_new_id` calls: for each call, the
counter on entry, whether the high-water-mark scan branch ran, and the
id issued. -/
def gen_trace : List (List Receipt) → Nat → List (Nat × Bool × Nat)
  | [], _ => []
  | h :: hs, c =>
    let p := get_new_id h c
    (c, decide (c = 0 ∧ h ≠ []), p.1) :: gen_trace hs p.2

/-- The add path of `run_menu` (src/main.c:233-249): `fgets` into a
30-byte name buffer, trim line terminators, and call `create_receipt`
only when the result is non-empty; with an empty name nothing at all
happens.  The emptiness check lives here, in the menu, not in
`create_receipt`. -/
def menu_add (s : CatalogState) (raw_name raw_receipt : List Nat) :
    CatalogState × FileOp :=
  let name := trim_line (raw_name.take 29)
  let rc := trim_line (raw_receipt.take 999)
  if name ≠ [] then create_receipt s name rc else (s, FileOp.none)

/-! ### Validity predicates used by the amended statements -/

/-- Bytes of a C string with no high (non-ASCII) bytes: nonzero (an
interior NUL cannot occur in a C string) and below 128, so that the
`int8_t` truncation in `case_insensitive_compare` never wraps. -/
def good_name (l : List Nat) : Prop := ∀ c ∈ l, 0 < c ∧ c < 128

/-- Bytes that keep the two-line framing intact: nonzero and not a line
terminator. -/
def no_newline (l : List Nat) : Prop := ∀ c ∈ l, 0 < c ∧ c ≠ 10 ∧ c ≠ 13

/-- A record the two-line framing stores and reloads intact: name within
the 29-byte limit, body short enough that its line fits one `fgets` call
on the 1000-byte buffer, no line terminators, and no `"Name:"` marker
occurring in the body line. -/
def framed_record (p : List Nat × List Nat) : Prop :=
  p.1.length ≤ 29 ∧ p.2.length ≤ 989 ∧ no_newline p.1 ∧ no_newline p.2 ∧
    strstr_found name_marker (receipt_hdr ++ p.2) = false

/-- The names supplied by a mutation are valid ASCII C strings. -/
def valid_mutation : Mutation → Prop
  | Mutation.create n _ => good_name n
  | Mutation.update _ nm _ => ∀ n, nm = Option.some n → good_name n
  | Mutation.delete _ => True

instance good_name_dec (l : List Nat) : Decidable (good_name l) :=
  inferInstanceAs (Decidable (∀ c ∈ l, 0 < c ∧ c < 128))

instance no_newline_dec (l : List Nat) : Decidable (no_newline l) :=
  inferInstanceAs (Decidable (∀ c ∈ l, 0 < c ∧ c ≠ 10 ∧ c ≠ 13))

instance framed_record_dec (p : List Nat × List Nat) : Decidable (framed_record p) :=
  inferInstanceAs (Decidable (p.1.length ≤ 29 ∧ p.2.length ≤ 989 ∧ no_newline p.1 ∧
    no_newline p.2 ∧ strstr_found name_marker (receipt_hdr ++ p.2) = false))

/-! ### Arithmetic of the truncated comparator -/

/-- A value already in `int8_t` range is unchanged by the truncation. -/
theorem wrap8_eq_self {d : Int} (h1 : -128 ≤ d) (h2 : d ≤ 127) : wrap8 d = d := by
  unfold wrap8; omega

/-- The truncation never maps a value and its negation both to the
strictly positive side: if the truncated value is nonnegative, the
truncated negation is nonpositive.  This is the only property of the
`int8_t` wrap the sorted-insert loop relies on. -/
theorem wrap8_flip {d : Int} (h : 0 ≤ wrap8 d) : wrap8 (-d) ≤ 0 := by
  unfold wrap8 at *; omega

/-- Folding keeps bytes below 128. -/
theorem tolower_lt_128 {c : Nat} (h : c < 128) : tolower c < 128 := by
  unfold tolower; split <;> omega

/-- Folding keeps bytes positive. -/
theorem tolower_pos {c : Nat} (h : 0 < c) : 0 < tolower c := by
  unfold tolower; split <;> omega

/-- The untruncated comparison is antisymmetric: swapping the arguments
negates the result. -/
theorem cicRaw_swap : ∀ a b : List Nat, cicRaw b a = -cicRaw a b := by
  intro a
  induction a with
  | nil => intro b; cases b <;> simp [cicRaw]
  | cons x a' ih =>
    intro b
    cases b with
    | nil => simp [cicRaw]
    | cons y b' =>
      by_cases h : tolower x = tolower y
      · simp [cicRaw, h, ih b']
      · have h2 : tolower y ≠ tolower x := fun he => h he.symm
        simp only [cicRaw, if_neg h, if_neg h2]
        omega

/-- The untruncated comparison of a string with itself is zero. -/
theorem cicRaw_self : ∀ a : List Nat, cicRaw a a = 0 := by
  intro a
  induction a with
  | nil => rfl
  | cons x a' ih => simp [cicRaw, ih]

/-- On strings of bytes below 128 the untruncated comparison stays in
`int8_t` range. -/
theorem cicRaw_bounds : ∀ a b : List Nat, (∀ c ∈ a, c < 128) → (∀ c ∈ b, c < 128) →
    -127 ≤ cicRaw a b ∧ cicRaw a b ≤ 127 := by
  intro a
  induction a with
  | nil =>
    intro b _ hb
    cases b with
    | nil => simp [cicRaw]
    | cons y b' =>
      have hy := tolower_lt_128 (hb y (by simp))
      simp only [cicRaw]
      omega
  | cons x a' ih =>
    intro b ha hb
    have hx := tolower_lt_128 (ha x (by simp))
    cases b with
    | nil =>
      simp only [cicRaw]
      omega
    | cons y b' =>
      have hy := tolower_lt_128 (hb y (by simp))
      by_cases h : tolower x = tolower y
      · simpa [cicRaw, h] using
          ih b' (fun c hc => ha c (by simp [hc])) (fun c hc => hb c (by simp [hc]))
      · simp only [cicRaw, if_neg h]
        omega

/-- On ASCII strings the `int8_t` truncation is the identity, so the
comparator agrees with its untruncated version. -/
theorem cic_eq_raw {a b : List Nat} (ha : ∀ c ∈ a, c < 128) (hb : ∀ c ∈ b, c < 128) :
    case_insensitive_compare a b = cicRaw a b := by
  have h := cicRaw_bounds a b ha hb
  exact wrap8_eq_self (by omega) h.2

/-- Even with the truncation, a nonnegative comparison one way forces a
nonpositive comparison the other way. -/
theorem cic_flip {a b : List Nat} (h : 0 ≤ case_insensitive_compare a b) :
    case_insensitive_compare b a ≤ 0 := by
  unfold case_insensitive_compare at *
  rw [cicRaw_swap a b]
  exact wrap8_flip h

/-- The untruncated comparison is transitive on strings of nonzero
bytes (an interior zero byte cannot occur in a C string). -/
theorem cicRaw_trans_le : ∀ a b c : List Nat,
    (∀ x ∈ a, 0 < x) → (∀ x ∈ b, 0 < x) → (∀ x ∈ c, 0 < x) →
    cicRaw a b ≤ 0 → cicRaw b c ≤ 0 → cicRaw a c ≤ 0 := by
  intro a
  induction a with
  | nil =>
    intro b c _ _ _ _ _
    cases c with
    | nil => simp [cicRaw]
    | cons z c' =>
      simp only [cicRaw]
      omega
  | cons x a' ih =>
    intro b c ha hb hc h1 h2
    cases b with
    | nil =>
      exfalso
      have := tolower_pos (ha x (by simp))
      simp only [cicRaw] at h1
      omega
    | cons y b' =>
      cases c with
      | nil =>
        exfalso
        have := tolower_pos (hb y (by simp))
        simp only [cicRaw] at h2
        omega
      | cons z c' =>
        by_cases hxy : tolower x = tolower y
        · by_cases hyz : tolower y = tolower z
          · have hxz : tolower x = tolower z := hxy.trans hyz
            simp only [cicRaw, if_pos hxy] at h1
            simp only [cicRaw, if_pos hyz] at h2
            simp only [cicRaw, if_pos hxz]
            exact ih b' c' (fun w hw => ha w (by simp [hw]))
              (fun w hw => hb w (by simp [hw])) (fun w hw => hc w (by simp [hw])) h1 h2
          · simp only [cicRaw, if_neg hyz] at h2
            have hxz : tolower x ≠ tolower z := by omega
            simp only [cicRaw, if_neg hxz]
            omega
        · simp only [cicRaw, if_neg hxy] at h1
          by_cases hyz : tolower y = tolower z
          · have hxz : tolower x ≠ tolower z := by omega
            simp only [cicRaw, if_neg hxz]
            omega
          · simp only [cicRaw, if_neg hyz] at h2
            have hxz : tolower x ≠ tolower z := by omega
            simp only [cicRaw, if_neg hxz]
            omega

/-- On strings of nonzero bytes the untruncated comparison is zero
exactly when the folded strings coincide. -/
theorem cicRaw_eq_zero_iff : ∀ a b : List Nat,
    (∀ x ∈ a, 0 < x) → (∀ x ∈ b, 0 < x) →
    (cicRaw a b = 0 ↔ a.map tolower = b.map tolower) := by
  intro a
  induction a with
  | nil =>
    intro b _ hb
    cases b with
    | nil => simp [cicRaw]
    | cons y b' =>
      have := tolower_pos (hb y (by simp))
      simp only [cicRaw, List.map_nil, List.map_cons]
      constructor
      · intro h; omega
      · intro h; exact absurd h (by simp)
  | cons x a' ih =>
    intro b ha hb
    cases b with
    | nil =>
      have := tolower_pos (ha x (by simp))
      simp only [cicRaw, List.map_nil, List.map_cons]
      constructor
      · intro h; omega
      · intro h; exact absurd h (by simp)
    | cons y b' =>
      by_cases h : tolower x = tolower y
      · have e1 : cicRaw (x :: a') (y :: b') = cicRaw a' b' := by simp [cicRaw, h]
        rw [e1, ih b' (fun w hw => ha w (by simp [hw])) (fun w hw => hb w (by simp [hw]))]
        simp [h]
      · have e1 : cicRaw (x :: a') (y :: b') = (tolower x : Int) - tolower y := by
          simp [cicRaw, h]
        rw [e1]
        simp only [List.map_cons]
        constructor
        · intro he; omega
        · intro he
          exact absurd (List.cons.injEq _ _ _ _ ▸ he).1 h

/-- Inversion of a lexicographic comparison of two nonempty lists:
either the heads are related, or they coincide and the tails compare. -/
theorem lex_cons_inv {r : Nat → Nat → Prop} {a b : Nat} {l1 l2 : List Nat}
    (h : List.Lex r (a :: l1) (b :: l2)) : r a b ∨ (a = b ∧ List.Lex r l1 l2) := by
  cases h with
  | cons h2 => exact Or.inr ⟨rfl, h2⟩
  | rel h2 => exact Or.inl h2

/-- On strings of nonzero bytes the untruncated comparison is negative
exactly when the folded first string is lexicographically below the
folded second. -/
theorem cicRaw_neg_iff_lex : ∀ a b : List Nat,
    (∀ x ∈ a, 0 < x) → (∀ x ∈ b, 0 < x) →
    (cicRaw a b < 0 ↔ List.Lex (· < ·) (a.map tolower) (b.map tolower)) := by
  intro a
  induction a with
  | nil =>
    intro b _ hb
    cases b with
    | nil =>
      simp only [cicRaw, List.map_nil]
      constructor
      · intro h; omega
      · intro h; exact absurd h (List.Lex.not_nil_right _ _)
    | cons y b' =>
      have := tolower_pos (hb y (by simp))
      simp only [cicRaw, List.map_nil, List.map_cons]
      constructor
      · intro _; exact List.Lex.nil
      · intro _; omega
  | cons x a' ih =>
    intro b ha hb
    cases b with
    | nil =>
      have := tolower_pos (ha x (by simp))
      simp only [cicRaw, List.map_nil, List.map_cons]
      constructor
      · intro h; omega
      · intro h; exact absurd h (List.Lex.not_nil_right _ _)
    | cons y b' =>
      by_cases h : tolower x = tolower y
      · have e1 : cicRaw (x :: a') (y :: b') = cicRaw a' b' := by simp [cicRaw, h]
        rw [e1, ih b' (fun w hw => ha w (by simp [hw])) (fun w hw => hb w (by simp [hw]))]
        simp only [List.map_cons, h]
        exact List.Lex.cons_iff.symm
      · have e1 : cicRaw (x :: a') (y :: b') = (tolower x : Int) - tolower y := by
          simp [cicRaw, h]
        rw [e1]
        simp only [List.map_cons]
        constructor
        · intro hlt
          exact List.Lex.rel (by omega)
        · intro hl
          rcases lex_cons_inv hl with h2 | ⟨h2, _⟩
          · omega
          · exact absurd h2 h

/-! ### Properties of the ordering relation on receipts -/

/-- The ordering relation is total (a consequence of the flip property,
with no validity assumption). -/
theorem name_le_total (a b : Receipt) : name_le a b ∨ name_le b a := by
  by_cases h : name_le a b
  · exact Or.inl h
  · exact Or.inr (cic_flip (le_of_lt (not_le.mp h)))

/-- On valid ASCII names the ordering relation is transitive. -/
theorem name_le_trans {a b c : Receipt} (ha : good_name a.name) (hb : good_name b.name)
    (hc : good_name c.name) (h1 : name_le a b) (h2 : name_le b c) : name_le a c := by
  unfold name_le at *
  rw [cic_eq_raw (fun w hw => (ha w hw).2) (fun w hw => (hb w hw).2)] at h1
  rw [cic_eq_raw (fun w hw => (hb w hw).2) (fun w hw => (hc w hw).2)] at h2
  rw [cic_eq_raw (fun w hw => (ha w hw).2) (fun w hw => (hc w hw).2)]
  exact cicRaw_trans_le a.name b.name c.name (fun w hw => (ha w hw).1)
    (fun w hw => (hb w hw).1) (fun w hw => (hc w hw).1) h1 h2

/-! ### Properties of the sorted-insert algorithm -/

/-- Elements of the scan-loop result are the candidate or old elements. -/
theorem mem_insert_rest {r x : Receipt} : ∀ {t : List Receipt},
    x ∈ insert_rest r t → x = r ∨ x ∈ t := by
  intro t
  induction t with
  | nil => simp [insert_rest]
  | cons y t' ih =>
    simp only [insert_rest]
    split
    · intro hx
      rcases List.mem_cons.1 hx with h | h
      · exact Or.inr (by simp [h])
      · rcases ih h with h2 | h2
        · exact Or.inl h2
        · exact Or.inr (by simp [h2])
    · intro hx
      rcases List.mem_cons.1 hx with h | h
      · exact Or.inl h
      · exact Or.inr h

/-- The scan loop produces a permutation of consing the candidate. -/
theorem insert_rest_perm (r : Receipt) : ∀ t : List Receipt,
    List.Perm (insert_rest r t) (r :: t) := by
  intro t
  induction t with
  | nil => exact List.Perm.refl _
  | cons y t' ih =>
    simp only [insert_rest]
    split
    · exact (ih.cons y).trans (List.Perm.swap r y t')
    · exact List.Perm.refl _

/-- The sorted insert produces a permutation of consing the candidate:
no entry is lost or duplicated. -/
theorem insert_perm (l : List Receipt) (r : Receipt) :
    List.Perm (insert_alphabetically l r) (r :: l) := by
  cases l with
  | nil => exact List.Perm.refl _
  | cons h t =>
    simp only [insert_alphabetically]
    split
    · exact List.Perm.refl _
    · exact ((insert_rest_perm r t).cons h).trans (List.Perm.swap r h t)

/-- The scan loop keeps adjacent pairs ordered, provided the node before
the scan region is already at most the candidate. -/
theorem chain'_insert_rest : ∀ (t : List Receipt) (prev r : Receipt),
    List.Chain' name_le (prev :: t) → name_le prev r →
    List.Chain' name_le (prev :: insert_rest r t) := by
  intro t
  induction t with
  | nil =>
    intro prev r _ hpr
    simp only [insert_rest]
    exact List.chain'_pair.mpr hpr
  | cons x t' ih =>
    intro prev r hch hpr
    have hch1 := List.chain'_cons.mp hch
    simp only [insert_rest]
    split
    · rename_i hlt
      rw [List.chain'_cons]
      exact ⟨hch1.1, ih x r hch1.2 (le_of_lt hlt)⟩
    · rename_i hge
      have hrx : name_le r x := cic_flip (not_lt.mp hge)
      rw [List.chain'_cons]
      exact ⟨hpr, List.chain'_cons.mpr ⟨hrx, hch1.2⟩⟩

/-- The sorted insert keeps adjacent pairs ordered, for arbitrary byte
strings (this needs only the flip property of the truncated
comparator). -/
theorem chain'_insert {l : List Receipt} (r : Receipt)
    (h : List.Chain' name_le l) :
    List.Chain' name_le (insert_alphabetically l r) := by
  cases l with
  | nil => simp [insert_alphabetically]
  | cons hd t =>
    simp only [insert_alphabetically]
    split
    · rename_i hlt
      rw [List.chain'_cons]
      exact ⟨le_of_lt hlt, h⟩
    · rename_i hge
      exact chain'_insert_rest t hd r h (cic_flip (not_lt.mp hge))

/-- The scan loop preserves full sortedness on valid ASCII names. -/
theorem pairwise_insert_rest : ∀ (t : List Receipt) (r : Receipt),
    good_name r.name → (∀ x ∈ t, good_name x.name) →
    List.Pairwise name_le t → List.Pairwise name_le (insert_rest r t) := by
  intro t
  induction t with
  | nil => simp [insert_rest]
  | cons x t' ih =>
    intro r hr hval hp
    have hp1 := List.pairwise_cons.mp hp
    simp only [insert_rest]
    split
    · rename_i hlt
      rw [List.pairwise_cons]
      constructor
      · intro y hy
        rcases mem_insert_rest hy with h2 | h2
        · exact h2 ▸ le_of_lt hlt
        · exact hp1.1 y h2
      · exact ih r hr (fun w hw => hval w (by simp [hw])) hp1.2
    · rename_i hge
      have hrx : name_le r x := cic_flip (not_lt.mp hge)
      rw [List.pairwise_cons]
      constructor
      · intro y hy
        rcases List.mem_cons.1 hy with h2 | h2
        · exact h2 ▸ hrx
        · exact name_le_trans hr (hval x (by simp))
            (hval y (by simp [h2])) hrx (hp1.1 y h2)
      · exact hp
/-- The sorted insert preserves full sortedness on valid ASCII names. -/
theorem pairwise_insert {l : List Receipt} {r : Receipt}
    (hr : good_name r.name) (hval : ∀ x ∈ l, good_name x.name)
    (hp : List.Pairwise name_le l) :
    List.Pairwise name_le (insert_alphabetically l r) := by
  cases l with
  | nil => simp [insert_alphabetically]
  | cons hd t =>
    have hp1 := List.pairwise_cons.mp hp
    simp only [insert_alphabetically]
    split
    · rename_i hlt
      rw [List.pairwise_cons]
      constructor
      · intro y hy
        rcases List.mem_cons.1 hy with h2 | h2
        · exact h2 ▸ le_of_lt hlt
        · exact name_le_trans hr (hval hd (by simp))
            (hval y (by simp [h2])) (le_of_lt hlt) (hp1.1 y h2)
      · exact hp
    · rename_i hge
      rw [List.pairwise_cons]
      constructor
      · intro y hy
        rcases mem_insert_rest hy with h2 | h2
        · exact h2 ▸ cic_flip (not_lt.mp hge)
        · exact hp1.1 y h2
      · exact pairwise_insert_rest t r hr (fun w hw => hval w (by simp [hw])) hp1.2

/-- The scan loop splits the tail at the first entry not strictly below
the candidate. -/
theorem insert_rest_take_drop (r : Receipt) : ∀ t : List Receipt,
    insert_rest r t =
      t.takeWhile (fun x => decide (case_insensitive_compare x.name r.name < 0)) ++
        r :: t.dropWhile (fun x => decide (case_insensitive_compare x.name r.name < 0)) := by
  intro t
  induction t with
  | nil => simp [insert_rest]
  | cons x t' ih =>
    by_cases h : case_insensitive_compare x.name r.name < 0
    · simp only [insert_rest, if_pos h, List.takeWhile_cons, List.dropWhile_cons,
        decide_eq_true h]
      simpa using ih
    · simp only [insert_rest, if_neg h, List.takeWhile_cons, List.dropWhile_cons,
        decide_eq_false h]
      simp

/-- The scan loop appends at the end when every element is strictly
below the candidate. -/
theorem insert_rest_append (r : Receipt) : ∀ t : List Receipt,
    (∀ x ∈ t, case_insensitive_compare x.name r.name < 0) →
    insert_rest r t = t ++ [r] := by
  intro t
  induction t with
  | nil => simp [insert_rest]
  | cons x t' ih =>
    intro h
    simp only [insert_rest, if_pos (h x (by simp))]
    rw [ih (fun w hw => h w (by simp [hw]))]
    simp

/-- Inserting an element strictly above every element of a valid ASCII
list appends it at the end. -/
theorem insert_append_all_lt (l : List Receipt) (r : Receipt)
    (hr : good_name r.name) (hval : ∀ x ∈ l, good_name x.name)
    (hlt : ∀ x ∈ l, case_insensitive_compare x.name r.name < 0) :
    insert_alphabetically l r = l ++ [r] := by
  cases l with
  | nil => rfl
  | cons hd t =>
    have h1 : ¬ case_insensitive_compare r.name hd.name < 0 := by
      have hd_lt := hlt hd (by simp)
      have hhd := hval hd (by simp)
      rw [cic_eq_raw (fun w hw => (hhd w hw).2) (fun w hw => (hr w hw).2)] at hd_lt
      rw [cic_eq_raw (fun w hw => (hr w hw).2) (fun w hw => (hhd w hw).2),
        cicRaw_swap hd.name r.name]
      omega
    simp only [insert_alphabetically, if_neg h1]
    rw [insert_rest_append r t (fun w hw => hlt w (by simp [hw]))]
    simp

/-! ### Properties of the update and delete search loops -/

/-- The update search finds nothing when no node carries the id. -/
theorem update_scan_not_found : ∀ (l : List Receipt) (rid : Nat) (nm rc : Option (List Nat)),
    (∀ r ∈ l, r.id ≠ rid) → update_scan rid nm rc l = Option.none := by
  intro l
  induction l with
  | nil => intro rid nm rc _; rfl
  | cons r t ih =>
    intro rid nm rc h
    simp only [update_scan, if_neg (h r (by simp))]
    rw [ih rid nm rc (fun w hw => h w (by simp [hw]))]

/-- Decomposition of a successful update search: the list splits around
the first node carrying the id; that node is replaced by its in-place
update and everything else is untouched. -/
theorem update_scan_found : ∀ (l : List Receipt) (rid : Nat) (nm rc : Option (List Nat))
    (l' : List Receipt) (x : Receipt) (ch : Bool),
    update_scan rid nm rc l = Option.some (l', x, ch) →
    ∃ A r B, l = A ++ r :: B ∧ (∀ a ∈ A, a.id ≠ rid) ∧ r.id = rid ∧
      x = (apply_upd r nm rc).1 ∧ ch = (apply_upd r nm rc).2 ∧ l' = A ++ x :: B := by
  intro l
  induction l with
  | nil => intro rid nm rc l' x ch h; exact absurd h (by simp [update_scan])
  | cons r t ih =>
    intro rid nm rc l' x ch h
    by_cases hid : r.id = rid
    · simp only [update_scan, if_pos hid, Option.some.injEq] at h
      refine ⟨[], r, t, rfl, by simp, hid, ?_, ?_, ?_⟩
      · exact (congrArg (fun p => p.2.1) h).symm
      · exact (congrArg (fun p => p.2.2) h).symm
      · have e1 := (congrArg (fun p => p.1) h)
        have e2 := (congrArg (fun p => p.2.1) h)
        simp only at e1 e2
        simp [← e1, e2]
    · simp only [update_scan, if_neg hid] at h
      cases hscan : update_scan rid nm rc t with
      | none => rw [hscan] at h; exact absurd h (by simp)
      | some trip =>
        obtain ⟨t', x0, c0⟩ := trip
        rw [hscan] at h
        simp only [Option.some.injEq] at h
        have e1 : r :: t' = l' := congrArg (fun p => p.1) h
        have e2 : x0 = x := congrArg (fun p => p.2.1) h
        have e3 : c0 = ch := congrArg (fun p => p.2.2) h
        obtain ⟨A, rr, B, hl, hA, hr, hx, hc, hl'⟩ := ih rid nm rc t' x0 c0 hscan
        refine ⟨r :: A, rr, B, by simp [hl], ?_, hr, e2 ▸ hx, e3 ▸ hc, ?_⟩
        · intro a ha
          rcases List.mem_cons.1 ha with h2 | h2
          · exact h2 ▸ hid
          · exact hA a h2
        · rw [← e1, hl', ← e2]
          simp

/-- The in-place update never changes the id. -/
theorem apply_upd_id (r : Receipt) (nm rc : Option (List Nat)) :
    (apply_upd r nm rc).1.id = r.id := by
  unfold apply_upd
  cases nm <;> cases rc <;> simp

/-- When the `name_changed` flag is clear the in-place update keeps the
name. -/
theorem apply_upd_name_same {r : Receipt} {nm rc : Option (List Nat)}
    (h : (apply_upd r nm rc).2 = false) : (apply_upd r nm rc).1.name = r.name := by
  unfold apply_upd at *
  cases nm with
  | none => simp
  | some n =>
    by_cases hc : n ≠ [] ∧ n ≠ r.name
    · simp [hc] at h
    · simp [hc]

/-- When the `name_changed` flag is set the new name is the truncated
supplied name. -/
theorem apply_upd_name_new {r : Receipt} {nm rc : Option (List Nat)}
    (h : (apply_upd r nm rc).2 = true) :
    ∃ n, nm = Option.some n ∧ (apply_upd r nm rc).1.name = n.take 29 := by
  unfold apply_upd at *
  cases nm with
  | none => simp at h
  | some n =>
    by_cases hc : n ≠ [] ∧ n ≠ r.name
    · exact ⟨n, rfl, by simp [hc]⟩
    · simp [hc] at h

/-- Removing the first node with an id from a split list around that id
drops exactly the split node. -/
theorem remove_first_split (rid : Nat) (x : Receipt) (hx : x.id = rid) :
    ∀ (A B : List Receipt), (∀ a ∈ A, a.id ≠ rid) →
    remove_first rid (A ++ x :: B) = A ++ B := by
  intro A
  induction A with
  | nil => intro B _; simp [remove_first, hx]
  | cons a A' ih =>
    intro B hA
    have e : remove_first rid (a :: (A' ++ x :: B)) = a :: remove_first rid (A' ++ x :: B) := by
      simp only [remove_first, if_neg (hA a (by simp))]
    rw [List.cons_append, e, ih B (fun w hw => hA w (by simp [hw])), List.cons_append]

/-- Removal is a sublist of the original list. -/
theorem remove_first_sublist (rid : Nat) : ∀ l : List Receipt,
    List.Sublist (remove_first rid l) l := by
  intro l
  induction l with
  | nil => simp [remove_first]
  | cons r t ih =>
    simp only [remove_first]
    split
    · exact List.sublist_cons_self r t
    · exact ih.cons₂ r

/-! ### The sort invariant across mutations -/

/-- Sortedness transfers along equality of the name sequences. -/
theorem pairwise_congr_names {l l' : List Receipt}
    (h : l.map Receipt.name = l'.map Receipt.name)
    (hp : List.Pairwise name_le l) : List.Pairwise name_le l' := by
  have h1 : List.Pairwise (fun a b : List Nat => case_insensitive_compare a b ≤ 0)
      (l.map Receipt.name) := by
    rw [List.pairwise_map]
    exact hp
  rw [h, List.pairwise_map] at h1
  exact h1

/-- Name validity transfers along equality of the name sequences. -/
theorem valid_congr_names {l l' : List Receipt}
    (h : l.map Receipt.name = l'.map Receipt.name)
    (hv : ∀ r ∈ l, good_name r.name) : ∀ r ∈ l', good_name r.name := by
  intro r hr
  have h2 : r.name ∈ l'.map Receipt.name := List.mem_map_of_mem _ hr
  rw [← h] at h2
  obtain ⟨r0, hr0, he⟩ := List.mem_map.1 h2
  exact he ▸ hv r0 hr0

/-- The invariant maintained across mutations: the list is fully sorted
and every entry name is a valid ASCII C string. -/
def inv (s : CatalogState) : Prop :=
  List.Pairwise name_le s.list ∧ ∀ r ∈ s.list, good_name r.name

/-- Creation preserves the invariant when the supplied name is valid. -/
theorem inv_create (s : CatalogState) (n rcpt : List Nat)
    (hn : good_name n) (h : inv s) : inv (create_receipt s n rcpt).1 := by
  obtain ⟨hp, hv⟩ := h
  have hn29 : good_name (n.take 29) := fun c hc => hn c (List.take_subset 29 n hc)
  constructor
  · exact pairwise_insert hn29 hv hp
  · intro r hr
    have h2 := (insert_perm s.list _).mem_iff.1 hr
    rcases List.mem_cons.1 h2 with h3 | h3
    · rw [h3]; exact hn29
    · exact hv r h3

/-- The list delivered by delete is either the removal of the first
matching node or the untouched input. -/
theorem delete_list_cases (head : List Receipt) (rid : Nat) :
    (delete_receipt head rid).1 = remove_first rid head ∨
      (delete_receipt head rid).1 = head := by
  cases head with
  | nil => exact Or.inr rfl
  | cons r t =>
    by_cases hany : ((r :: t).any fun w => w.id == rid) = true
    · exact Or.inl (by simp [delete_receipt, hany])
    · exact Or.inr (by simp [delete_receipt, hany])

/-- Deletion preserves the invariant. -/
theorem inv_delete (s : CatalogState) (rid : Nat) (h : inv s) :
    inv (⟨(delete_receipt s.list rid).1, s.next_id⟩ : CatalogState) := by
  obtain ⟨hp, hv⟩ := h
  rcases delete_list_cases s.list rid with e | e
  · refine ⟨?_, ?_⟩
    · show List.Pairwise name_le (delete_receipt s.list rid).1
      rw [e]
      exact hp.sublist (remove_first_sublist rid s.list)
    · show ∀ r ∈ (delete_receipt s.list rid).1, good_name r.name
      rw [e]
      intro w hw
      exact hv w ((remove_first_sublist rid s.list).subset hw)
  · refine ⟨?_, ?_⟩
    · show List.Pairwise name_le (delete_receipt s.list rid).1
      rw [e]
      exact hp
    · show ∀ r ∈ (delete_receipt s.list rid).1, good_name r.name
      rw [e]
      exact hv

/-- Case analysis on the list delivered by update: untouched (early
return or id not found), in-place update (name kept), or detach and
reinsert (name changed). -/
theorem update_list_cases (head : List Receipt) (rid : Nat) (nm rc : Option (List Nat)) :
    (update_receipt head rid nm rc).1 = head ∨
    ∃ l' x ch, update_scan rid nm rc head = Option.some (l', x, ch) ∧
      ((ch = false ∧ (update_receipt head rid nm rc).1 = l') ∨
       (ch = true ∧ (update_receipt head rid nm rc).1 =
          insert_alphabetically (remove_first rid l') x)) := by
  unfold update_receipt
  split
  · exact Or.inl rfl
  · cases hscan : update_scan rid nm rc head with
    | none => exact Or.inl rfl
    | some trip =>
      obtain ⟨l', x, ch⟩ := trip
      refine Or.inr ⟨l', x, ch, rfl, ?_⟩
      cases ch with
      | false => exact Or.inl ⟨rfl, by simp⟩
      | true => exact Or.inr ⟨rfl, by simp⟩

/-- Update preserves sortedness and name validity of the list when any
supplied new name is valid. -/
theorem update_list_inv (head : List Receipt) (rid : Nat) (nm rc : Option (List Nat))
    (hn : ∀ n, nm = Option.some n → good_name n)
    (hp : List.Pairwise name_le head) (hv : ∀ r ∈ head, good_name r.name) :
    List.Pairwise name_le (update_receipt head rid nm rc).1 ∧
      ∀ r ∈ (update_receipt head rid nm rc).1, good_name r.name := by
  rcases update_list_cases head rid nm rc with e | ⟨l', x, ch, hscan, hcase⟩
  · rw [e]; exact ⟨hp, hv⟩
  · obtain ⟨A, r, B, hl, hA, hr, hx, hc, hl'⟩ :=
      update_scan_found head rid nm rc l' x ch hscan
    rcases hcase with ⟨hch, e⟩ | ⟨hch, e⟩
    · have hsame := apply_upd_name_same (hc.symm.trans hch)
      have hnames : head.map Receipt.name = l'.map Receipt.name := by
        rw [hl, hl']
        simp [hx, hsame]
      rw [e]
      exact ⟨pairwise_congr_names hnames hp, valid_congr_names hnames hv⟩
    · have hxid : x.id = rid := by rw [hx, apply_upd_id]; exact hr
      have hrem : remove_first rid l' = A ++ B := by
        rw [hl']
        exact remove_first_split rid x hxid A B hA
      obtain ⟨n, hnm, hname⟩ := apply_upd_name_new (hc.symm.trans hch)
      have hgx : good_name x.name := by
        rw [hx, hname]
        exact fun c hcm => hn n hnm c (List.take_subset 29 n hcm)
      have hsubAB : List.Sublist (A ++ B) head := by
        rw [hl]
        exact (List.sublist_cons_self r B).append_left A
      rw [e, hrem]
      refine ⟨pairwise_insert hgx (fun w hw => hv w (hsubAB.subset hw))
        (hp.sublist hsubAB), ?_⟩
      intro w hw
      have h2 := (insert_perm (A ++ B) x).mem_iff.1 hw
      rcases List.mem_cons.1 h2 with h3 | h3
      · rw [h3]; exact hgx
      · exact hv w (hsubAB.subset h3)

/-- Update preserves the invariant when any supplied new name is
valid. -/
theorem inv_update (s : CatalogState) (rid : Nat) (nm rc : Option (List Nat))
    (hn : ∀ n, nm = Option.some n → good_name n) (h : inv s) :
    inv (⟨(update_receipt s.list rid nm rc).1, s.next_id⟩ : CatalogState) := by
  obtain ⟨hp, hv⟩ := h
  have h2 := update_list_inv s.list rid nm rc hn hp hv
  exact ⟨h2.1, h2.2⟩

/-! ### Properties of the persistence adapter -/

/-- One `fgets` call on a stream starting with a short newline-free
chunk reads exactly through the newline. -/
theorem read_line_exact : ∀ (b rest : List Nat) (n : Nat), b.length < n →
    (∀ c ∈ b, c ≠ 10) → read_line n (b ++ 10 :: rest) = (b ++ [10], rest) := by
  intro b
  induction b with
  | nil =>
    intro rest n hn _
    cases n with
    | zero => omega
    | succ m => simp [read_line]
  | cons c b' ih =>
    intro rest n hn hc
    cases n with
    | zero => omega
    | succ m =>
      have hc10 : c ≠ 10 := hc c (by simp)
      simp only [List.cons_append, read_line, if_neg hc10]
      rw [show b'.append (10 :: rest) = b' ++ 10 :: rest from rfl]
      rw [ih rest m (by simpa using hn) (fun d hd => hc d (by simp [hd]))]

/-- Unfolding one step of the `fgets` loop on a non-empty stream. -/
theorem split_fuel_cons (f : Nat) (s : List Nat) (hs : s ≠ []) :
    split_lines_fuel (f + 1) s =
      (read_line 999 s).1 :: split_lines_fuel f (read_line 999 s).2 := by
  cases s with
  | nil => exact absurd rfl hs
  | cons c t => rfl

/-- The line list of a record list: the two framed lines of each record
in order, as the `fgets` loop delivers them. -/
def lines_of : List (List Nat × List Nat) → List (List Nat)
  | [] => []
  | p :: t => (name_hdr ++ p.1 ++ [10]) :: (receipt_hdr ++ p.2 ++ [10]) :: lines_of t

/-- Splitting the rendered file of framed records yields exactly the two
lines of each record, given enough fuel. -/
theorem split_render : ∀ (recs : List (List Nat × List Nat)) (f : Nat),
    (∀ p ∈ recs, framed_record p) → (render_file recs).length ≤ f →
    split_lines_fuel f (render_file recs) = lines_of recs := by
  intro recs
  induction recs with
  | nil =>
    intro f _ _
    cases f <;> rfl
  | cons p t ih =>
    intro f hr hf
    obtain ⟨h29, h989, hn_nl, hb_nl, _⟩ := hr p (by simp)
    have e1 : render_file (p :: t) =
        (name_hdr ++ p.1) ++ 10 :: ((receipt_hdr ++ p.2) ++ 10 :: render_file t) := by
      simp [render_file, name_hdr, receipt_hdr]
    have hlen1 : (name_hdr ++ p.1).length = 6 + p.1.length := by
      simp [name_hdr]
      omega
    have hlen2 : (receipt_hdr ++ p.2).length = 9 + p.2.length := by
      simp [receipt_hdr]
      omega
    have hfl : (render_file (p :: t)).length =
        (6 + p.1.length) + 1 + ((9 + p.2.length) + 1 + (render_file t).length) := by
      rw [e1]
      simp [name_hdr, receipt_hdr]
      omega
    have hno1 : ∀ c ∈ name_hdr ++ p.1, c ≠ 10 := by
      intro c hcm
      rcases List.mem_append.1 hcm with h2 | h2
      · simp [name_hdr] at h2
        omega
      · exact (hn_nl c h2).2.1
    have hno2 : ∀ c ∈ receipt_hdr ++ p.2, c ≠ 10 := by
      intro c hcm
      rcases List.mem_append.1 hcm with h2 | h2
      · simp [receipt_hdr] at h2
        omega
      · exact (hb_nl c h2).2.1
    cases f with
    | zero =>
      rw [hfl] at hf
      omega
    | succ f1 =>
      rw [split_fuel_cons f1 _ (by rw [e1]; simp)]
      rw [e1, read_line_exact (name_hdr ++ p.1) _ 999 (by rw [hlen1]; omega) hno1]
      simp only []
      cases f1 with
      | zero =>
        rw [hfl] at hf
        omega
      | succ f2 =>
        rw [split_fuel_cons f2 _ (by simp)]
        rw [read_line_exact (receipt_hdr ++ p.2) _ 999 (by rw [hlen2]; omega) hno2]
        simp only []
        rw [ih f2 (fun w hw => hr w (by simp [hw])) (by rw [hfl] at hf; omega)]
        simp [lines_of]

/-- Trimming a terminator-free line with its trailing newline recovers
the line. -/
theorem trim_append_newline : ∀ b : List Nat, (∀ c ∈ b, c ≠ 10 ∧ c ≠ 13) →
    trim_line (b ++ [10]) = b := by
  intro b
  induction b with
  | nil => intro _; rfl
  | cons c b' ih =>
    intro h
    have hc := h c (by simp)
    have hcb : (!(c == 10 || c == 13)) = true := by
      simp [hc.1, hc.2]
    simp only [List.cons_append, trim_line, List.takeWhile_cons, hcb, if_true]
    rw [show List.takeWhile (fun c => !(c == 10 || c == 13)) (b' ++ [10]) =
      trim_line (b' ++ [10]) from rfl]
    rw [ih (fun d hd => h d (by simp [hd]))]

/-- The `"Name:"` marker is found on every framed name line. -/
theorem strstr_name_line (nm : List Nat) :
    strstr_found name_marker (name_hdr ++ nm) = true := rfl

/-- The `"Receipt:"` marker is found on every framed body line. -/
theorem strstr_receipt_line (bd : List Nat) :
    strstr_found receipt_marker (receipt_hdr ++ bd) = true := rfl

/-- Parsing the line list of framed records inserts exactly the records
with sequential ids. -/
theorem parse_lines_of : ∀ (recs : List (List Nat × List Nat)) (n : Nat)
    (head : List Receipt), (∀ p ∈ recs, framed_record p) →
    parse_lines (lines_of recs) Option.none n head = load_pure recs n head := by
  intro recs
  induction recs with
  | nil => intro n head _; rfl
  | cons p t ih =>
    intro n head hr
    obtain ⟨h29, h989, hn_nl, hb_nl, hmark⟩ := hr p (by simp)
    have hno1 : ∀ c ∈ name_hdr ++ p.1, c ≠ 10 ∧ c ≠ 13 := by
      intro c hcm
      rcases List.mem_append.1 hcm with h2 | h2
      · simp [name_hdr] at h2
        omega
      · exact ⟨(hn_nl c h2).2.1, (hn_nl c h2).2.2⟩
    have hno2 : ∀ c ∈ receipt_hdr ++ p.2, c ≠ 10 ∧ c ≠ 13 := by
      intro c hcm
      rcases List.mem_append.1 hcm with h2 | h2
      · simp [receipt_hdr] at h2
        omega
      · exact ⟨(hb_nl c h2).2.1, (hb_nl c h2).2.2⟩
    have hdrop1 : ((name_hdr ++ p.1).drop 6).take 29 = p.1 := by
      have e : (name_hdr ++ p.1).drop 6 = p.1 := by
        simp [name_hdr]
      rw [e]
      exact List.take_of_length_le h29
    have hdrop2 : ((receipt_hdr ++ p.2).drop 9).take 999 = p.2 := by
      have e : (receipt_hdr ++ p.2).drop 9 = p.2 := by
        simp [receipt_hdr]
      rw [e]
      exact List.take_of_length_le (by omega)
    simp only [lines_of, parse_lines]
    rw [trim_append_newline (name_hdr ++ p.1) hno1]
    rw [strstr_name_line p.1]
    simp only [if_true]
    rw [trim_append_newline (receipt_hdr ++ p.2) hno2]
    rw [show strstr_found name_marker (receipt_hdr ++ p.2) = false from hmark]
    simp only [Bool.false_eq_true, if_false]
    rw [strstr_receipt_line p.2]
    simp only [if_true, hdrop1, hdrop2]
    exact ih (n + 1) _ (fun w hw => hr w (by simp [hw]))

/-- Loading is a permutation of the records with their sequential file
ids (no record is lost or duplicated by the sorted insertion). -/
theorem load_pure_perm : ∀ (recs : List (List Nat × List Nat)) (n : Nat)
    (head : List Receipt),
    List.Perm (load_pure recs n head) (recs_with_ids recs n ++ head) := by
  intro recs
  induction recs with
  | nil => intro n head; simp [load_pure, recs_with_ids]
  | cons p t ih =>
    intro n head
    simp only [load_pure, recs_with_ids, List.cons_append]
    refine (ih (n + 1) _).trans ?_
    refine (List.Perm.append_left (recs_with_ids t (n + 1))
      (insert_perm head ⟨n, p.1, p.2⟩)).trans ?_
    exact List.perm_middle

/-- The parsing loop keeps adjacent pairs ordered, starting from any
ordered accumulator. -/
theorem chain'_load_pure : ∀ (recs : List (List Nat × List Nat)) (n : Nat)
    (head : List Receipt), List.Chain' name_le head →
    List.Chain' name_le (load_pure recs n head) := by
  intro recs
  induction recs with
  | nil => intro n head h; exact h
  | cons p t ih =>
    intro n head h
    exact ih (n + 1) _ (chain'_insert _ h)

/-- The parsing loop on any line list keeps adjacent pairs of the
accumulated list ordered. -/
theorem chain'_parse : ∀ (ls : List (List Nat)) (tmp : Option (List Nat)) (n : Nat)
    (head : List Receipt), List.Chain' name_le head →
    List.Chain' name_le (parse_lines ls tmp n head) := by
  intro ls
  induction ls with
  | nil => intro tmp n head h; exact h
  | cons raw ls' ih =>
    intro tmp n head h
    cases tmp with
    | none =>
      simp only [parse_lines]
      split
      · exact ih _ n head h
      · exact ih _ n head h
    | some nm =>
      simp only [parse_lines]
      split
      · exact ih _ n head h
      · split
        · exact ih _ (n + 1) _ (chain'_insert _ h)
        · exact ih _ n head h

/-- Loading strictly ascending records appends each at the end: the
loaded list is exactly the records with sequential ids, in file
order. -/
theorem load_pure_sorted : ∀ (recs : List (List Nat × List Nat)) (n : Nat)
    (head : List Receipt),
    (∀ p ∈ recs, good_name p.1) → (∀ x ∈ head, good_name x.name) →
    List.Pairwise (fun a b : List Nat × List Nat =>
      case_insensitive_compare a.1 b.1 < 0) recs →
    (∀ x ∈ head, ∀ p ∈ recs, case_insensitive_compare x.name p.1 < 0) →
    load_pure recs n head = head ++ recs_with_ids recs n := by
  intro recs
  induction recs with
  | nil => intro n head _ _ _ _; simp [load_pure, recs_with_ids]
  | cons p t ih =>
    intro n head hg hvh hpw hcross
    have hpw1 := List.pairwise_cons.mp hpw
    simp only [load_pure]
    rw [insert_append_all_lt head ⟨n, p.1, p.2⟩ (hg p (by simp)) hvh
      (fun x hx => hcross x hx p (by simp))]
    have e2 := ih (n + 1) (head ++ [(⟨n, p.1, p.2⟩ : Receipt)])
      (fun w hw => hg w (by simp [hw]))
      (by
        intro x hx
        rcases List.mem_append.1 hx with h2 | h2
        · exact hvh x h2
        · rw [List.mem_singleton.1 h2]
          exact hg p (by simp))
      hpw1.2
      (by
        intro x hx q hq
        rcases List.mem_append.1 hx with h2 | h2
        · exact hcross x h2 q (by simp [hq])
        · rw [List.mem_singleton.1 h2]
          exact hpw1.1 q hq)
    rw [e2]
    simp [recs_with_ids]

/-- Rewriting the loaded records reproduces the rendered file: the ids
do not appear in the output. -/
theorem rewrite_recs_with_ids : ∀ (recs : List (List Nat × List Nat)) (n : Nat),
    rewrite_receipts_to_file (recs_with_ids recs n) = render_file recs := by
  intro recs
  induction recs with
  | nil => intro n; rfl
  | cons p t ih =>
    intro n
    have e := ih (n + 1)
    simp only [rewrite_receipts_to_file, render_file] at e
    simp only [recs_with_ids, rewrite_receipts_to_file, render_file, List.map_cons,
      List.flatten_cons]
    rw [e]

/-! ### Properties of the id generator -/

/-- A nonzero counter is issued unchanged. -/
theorem get_new_id_no_scan {h : List Receipt} {c : Nat} (hc : c ≠ 0) :
    (get_new_id h c).1 = c := by
  simp [get_new_id, hc]

/-- The counter after a call is the issued id plus one, modulo 2^16. -/
theorem get_new_id_snd (h : List Receipt) (c : Nat) :
    (get_new_id h c).2 = ((get_new_id h c).1 + 1) % 65536 := rfl

/-- The ids issued by a run of the generator are strictly ascending as
long as no issued id reaches 65535 (where the `uint16_t` counter would
wrap to zero). -/
theorem run_gen_chain : ∀ (hs : List (List Receipt)) (c : Nat),
    (∀ n ∈ run_gen hs c, n < 65535) → List.Chain' (· < ·) (run_gen hs c) := by
  intro hs
  induction hs with
  | nil => intro c _; simp [run_gen]
  | cons h t ih =>
    intro c hb
    simp only [run_gen]
    rw [List.chain'_cons']
    refine ⟨?_, ih _ (fun n hn => hb n (by simp [run_gen, hn]))⟩
    intro m hm
    cases t with
    | nil => simp [run_gen] at hm
    | cons h2 t2 =>
      simp only [run_gen, List.head?_cons, Option.mem_def, Option.some.injEq] at hm
      have hn : (get_new_id h c).1 < 65535 := hb _ (by simp [run_gen])
      have hc2 : (get_new_id h c).2 = (get_new_id h c).1 + 1 := by
        rw [get_new_id_snd]
        exact Nat.mod_eq_of_lt (by omega)
      rw [← hm, get_new_id_no_scan (by omega : (get_new_id h c).2 ≠ 0)]
      omega

/-- From a nonzero counter, and as long as no issued id reaches 65535,
every later counter stays positive and the scan branch never runs. -/
theorem gen_trace_no_rescan : ∀ (hs : List (List Receipt)) (c : Nat), c ≠ 0 →
    (∀ e ∈ gen_trace hs c, e.2.2 < 65535) →
    (∀ e ∈ gen_trace hs c, 0 < e.1) ∧
      (gen_trace hs c).countP (fun e => e.2.1) = 0 := by
  intro hs
  induction hs with
  | nil => intro c _ _; simp [gen_trace]
  | cons h t ih =>
    intro c hc hb
    have hdec : decide (c = 0 ∧ h ≠ []) = false := by simp [hc]
    have hn : (get_new_id h c).1 = c := get_new_id_no_scan hc
    have hlt : c < 65535 := by
      have h2 := hb (c, decide (c = 0 ∧ h ≠ []), (get_new_id h c).1) (by simp [gen_trace])
      simpa [hn] using h2
    have hc2 : (get_new_id h c).2 = c + 1 := by
      rw [get_new_id_snd, hn]
      exact Nat.mod_eq_of_lt (by omega)
    obtain ⟨ih1, ih2⟩ := ih (get_new_id h c).2 (by omega)
      (fun e he => hb e (by simp [gen_trace, he]))
    constructor
    · intro e he
      simp only [gen_trace, List.mem_cons] at he
      rcases he with he | he
      · rw [he]
        simp only []
        omega
      · exact ih1 e he
    · simp only [gen_trace, List.countP_cons, hdec]
      simp [ih2]

/-- Every valid mutation preserves the invariant. -/
theorem inv_mutation {s : CatalogState} {m : Mutation}
    (hm : valid_mutation m) (h : inv s) : inv (apply_mutation s m) := by
  cases m with
  | create n r => exact inv_create s n r hm h
  | update rid nm rc => exact inv_update s rid nm rc hm h
  | delete rid => exact inv_delete s rid h

/-- Every sequence of valid mutations preserves the invariant. -/
theorem inv_mutations : ∀ (ms : List Mutation) (s : CatalogState),
    (∀ m ∈ ms, valid_mutation m) → inv s → inv (apply_mutations s ms) := by
  intro ms
  induction ms with
  | nil => intro s _ h; exact h
  | cons m ms' ih =>
    intro s hm h
    exact ih _ (fun w hw => hm w (by simp [hw])) (inv_mutation (hm m (by simp)) h)

/-! ### Claim C1 -/

/-- Claim C1, counterexample.  The claim states that after every
mutation the list is sorted, with every adjacent pair comparing at most
zero.  The concrete mutation sequence create 0xC9, create 0x81, create
0x01, delete id 1 (all legal mutations from the empty catalog) leaves
the adjacent pair (0x01, 0xC9) on which the `int8_t`-truncated
comparator is strictly positive: the invariant is violated after the
delete completes. -/
theorem C1_cex :
    (apply_mutations ⟨[], 0⟩ [Mutation.create [201] [120], Mutation.create [129] [120],
      Mutation.create [1] [120], Mutation.delete 1]).list =
      [⟨2, [1], [120]⟩, ⟨0, [201], [120]⟩] ∧
    0 < case_insensitive_compare [1] [201] := by decide

/-- Claim C1, amended.  Loading always yields a list whose adjacent
pairs satisfy `case_insensitive_compare ≤ 0`; and when every name byte
is a nonzero ASCII byte (below 128, so the `int8_t` truncation in the
comparator never wraps), every sequence of create, update and delete
mutations starting from a fully sorted catalog keeps the list fully
sorted, with every adjacent pair comparing at most zero. -/
theorem C1_amended :
    (∀ file : List Nat, List.Chain' name_le (load_receipts file)) ∧
    (∀ (init : CatalogState) (muts : List Mutation),
        List.Pairwise name_le init.list → (∀ r ∈ init.list, good_name r.name) →
        (∀ m ∈ muts, valid_mutation m) →
        List.Chain' name_le (apply_mutations init muts).list) := by
  constructor
  · intro file
    exact chain'_parse _ _ _ _ List.chain'_nil
  · intro init muts h1 h2 h3
    exact ((inv_mutations muts init h3 ⟨h1, h2⟩).1).chain'

/-- Claim C1, witness for the amended theorem at a concrete input. -/
theorem C1_witness :
    List.Pairwise name_le (([] : List Receipt)) ∧
    (∀ m ∈ [Mutation.create [97] [120]], valid_mutation m) ∧
    List.Chain' name_le
      (apply_mutations ⟨[], 0⟩ [Mutation.create [97] [120]]).list := by
  have hv : ∀ m ∈ [Mutation.create [97] [120]], valid_mutation m := by
    intro m hm
    rw [List.mem_singleton.1 hm]
    exact (by decide : good_name [97])
  exact ⟨List.Pairwise.nil, hv,
    C1_amended.2 ⟨[], 0⟩ [Mutation.create [97] [120]] List.Pairwise.nil (by simp) hv⟩

/-! ### Claim C2 -/

/-- Claim C2, counterexample.  The claim states that a candidate is
placed after all existing entries that compare equal to it.  Inserting
names "apple", "Apple", "APPLE" in that order yields ids `[0, 2, 1]`:
the third insert lands between the two earlier fold-equal entries
(before "Apple", which compares equal to it), not after them. -/
theorem C2_cex :
    (insert_alphabetically (insert_alphabetically (insert_alphabetically []
      ⟨0, [97, 112, 112, 108, 101], []⟩) ⟨1, [65, 112, 112, 108, 101], []⟩)
      ⟨2, [65, 80, 80, 76, 69], []⟩).map Receipt.id = [0, 2, 1] ∧
    case_insensitive_compare [65, 112, 112, 108, 101] [65, 80, 80, 76, 69] = 0 := by
  decide

/-- Claim C2, amended.  The sorted insert on an empty list makes the
candidate the sole element; on a non-empty list the candidate becomes
the new head if it compares strictly below the head, and otherwise is
placed after the head and after the longest prefix of the tail whose
entries compare strictly below the candidate — so the candidate follows
at most one equal-comparing entry (a head reached by the strictly-less
scan) and precedes every other equal-comparing entry.  In particular
with exactly two fold-equal names, "apple" inserted before "Apple",
insertion order is preserved. -/
theorem C2_amended :
    (∀ r : Receipt, insert_alphabetically [] r = [r]) ∧
    (∀ (h : Receipt) (t : List Receipt) (r : Receipt),
      insert_alphabetically (h :: t) r =
        if case_insensitive_compare r.name h.name < 0 then r :: h :: t
        else h ::
          (t.takeWhile (fun x => decide (case_insensitive_compare x.name r.name < 0)) ++
            r :: t.dropWhile (fun x => decide (case_insensitive_compare x.name r.name < 0)))) ∧
    (insert_alphabetically (insert_alphabetically []
      ⟨0, [97, 112, 112, 108, 101], []⟩) ⟨1, [65, 112, 112, 108, 101], []⟩).map Receipt.id =
      [0, 1] := by
  refine ⟨fun r => rfl, ?_, by decide⟩
  intro h t r
  simp only [insert_alphabetically]
  split
  · rfl
  · rw [insert_rest_take_drop r t]

/-! ### Claim C3 -/

/-- Claim C3, counterexample.  The claim states that the sign of the
comparator always agrees with the byte-wise lexicographic order of the
folded strings.  On the single-byte strings 0x01 and 0xC8 the folded
first string is lexicographically below the folded second, yet the
comparator returns a strictly positive value: the untruncated
difference is -199, which the `int8_t` return type wraps to +57. -/
theorem C3_cex :
    List.Lex (· < ·) (List.map tolower [1]) (List.map tolower [200]) ∧
    0 < case_insensitive_compare [1] [200] := by
  constructor
  · exact List.Lex.rel (by decide)
  · decide

/-- Claim C3, amended.  On strings of nonzero ASCII bytes (below 128,
where the `int8_t` truncation is the identity) the comparator returns 0
exactly when the per-character lowercase foldings are equal in length
and content, a negative value exactly when the folded first string is
lexicographically below the folded second (first mismatch or earlier
end of the first string decides), and a positive value in the symmetric
case. -/
theorem C3_amended (s1 s2 : List Nat) (h1 : good_name s1) (h2 : good_name s2) :
    (case_insensitive_compare s1 s2 = 0 ↔ List.map tolower s1 = List.map tolower s2) ∧
    (case_insensitive_compare s1 s2 < 0 ↔
      List.Lex (· < ·) (List.map tolower s1) (List.map tolower s2)) ∧
    (0 < case_insensitive_compare s1 s2 ↔
      List.Lex (· < ·) (List.map tolower s2) (List.map tolower s1)) := by
  have e := cic_eq_raw (fun c hc => (h1 c hc).2) (fun c hc => (h2 c hc).2)
  rw [e]
  refine ⟨cicRaw_eq_zero_iff s1 s2 (fun c hc => (h1 c hc).1) (fun c hc => (h2 c hc).1),
    cicRaw_neg_iff_lex s1 s2 (fun c hc => (h1 c hc).1) (fun c hc => (h2 c hc).1), ?_⟩
  rw [← cicRaw_neg_iff_lex s2 s1 (fun c hc => (h2 c hc).1) (fun c hc => (h1 c hc).1)]
  rw [cicRaw_swap s1 s2]
  omega

/-- Claim C3, witness for the amended theorem at a concrete input. -/
theorem C3_witness :
    good_name [97, 66] ∧ good_name [98] ∧
    ((case_insensitive_compare [97, 66] [98] = 0 ↔
        List.map tolower [97, 66] = List.map tolower [98]) ∧
      (case_insensitive_compare [97, 66] [98] < 0 ↔
        List.Lex (· < ·) (List.map tolower [97, 66]) (List.map tolower [98])) ∧
      (0 < case_insensitive_compare [97, 66] [98] ↔
        List.Lex (· < ·) (List.map tolower [98]) (List.map tolower [97, 66]))) :=
  ⟨by decide, by decide, C3_amended [97, 66] [98] (by decide) (by decide)⟩

/-! ### Claim C4 -/

/-- Claim C4, counterexample.  The claim states that an update with an
absent id performs no write to the persisted store.  On a catalog whose
only entry has id 0, updating id 5 with a non-null name argument leaves
the list unchanged but still performs a full-file rewrite
(src/main.c:786 runs on the not-found path too). -/
theorem C4_cex :
    (∀ r ∈ ([⟨0, [97], [98]⟩] : List Receipt), r.id ≠ 5) ∧
    (update_receipt [⟨0, [97], [98]⟩] 5 (Option.some [99]) Option.none).2 ≠
      FileOp.none := by decide

/-- Claim C4, amended.  For every catalog and every id not held by any
entry, update leaves the in-memory list unchanged; if both arguments
are NULL it performs no file operation, but otherwise it still rewrites
the full (unchanged) list to the persisted store — the write happens
even on the not-found path, though the written content equals what a
faithful store already held. -/
theorem C4_amended (head : List Receipt) (rid : Nat) (nm rc : Option (List Nat))
    (h : ∀ r ∈ head, r.id ≠ rid) :
    (update_receipt head rid nm rc).1 = head ∧
    (update_receipt head rid nm rc).2 =
      (if nm = Option.none ∧ rc = Option.none then FileOp.none
       else FileOp.rewrite head) := by
  unfold update_receipt
  split
  · rename_i hboth
    simp [hboth]
  · rename_i hboth
    rw [update_scan_not_found head rid nm rc h]
    simp [hboth]

/-- Claim C4, witness for the amended theorem at a concrete input. -/
theorem C4_witness :
    (∀ r ∈ ([⟨0, [97], [98]⟩] : List Receipt), r.id ≠ 7) ∧
    ((update_receipt [⟨0, [97], [98]⟩] 7 (Option.some [100]) Option.none).1 =
        [⟨0, [97], [98]⟩] ∧
      (update_receipt [⟨0, [97], [98]⟩] 7 (Option.some [100]) Option.none).2 =
        (if (Option.some [100] : Option (List Nat)) = Option.none ∧
            (Option.none : Option (List Nat)) = Option.none then FileOp.none
         else FileOp.rewrite [⟨0, [97], [98]⟩])) :=
  ⟨by decide, C4_amended [⟨0, [97], [98]⟩] 7 (Option.some [100]) Option.none (by decide)⟩

/-! ### Claim C5 -/

/-- Claim C5, counterexample.  The claim states that load followed by
rewrite reproduces byte-identical content for every well-formed store
file within the limits.  The file holding "Banana" before "Apple" (two
well-formed framed records) satisfies the claim's hypotheses, but load
re-sorts the records and rewrite emits "Apple" first: the bytes
differ. -/
theorem C5_cex :
    (∀ p ∈ [([66, 97, 110, 97, 110, 97], [120]), ([65, 112, 112, 108, 101], [121])],
      framed_record p) ∧
    rewrite_receipts_to_file (load_receipts (render_file
      [([66, 97, 110, 97, 110, 97], [120]), ([65, 112, 112, 108, 101], [121])])) ≠
    render_file [([66, 97, 110, 97, 110, 97], [120]), ([65, 112, 112, 108, 101], [121])] := by
  constructor
  · decide
  · decide

/-- Claim C5, amended.  For every store file of well-formed two-line
records — names at most 29 bytes, bodies at most 989 bytes (so the body
line fits one `fgets` call on the 1000-byte buffer), no line
terminators, no `"Name:"` marker in the body line, names made of
nonzero ASCII bytes — whose records are pairwise strictly ascending
under the comparator (the file is already in sorted order), loading the
file and rewriting the resulting list reproduces byte-identical file
content. -/
theorem C5_amended (recs : List (List Nat × List Nat))
    (h1 : ∀ p ∈ recs, framed_record p)
    (h2 : ∀ p ∈ recs, good_name p.1)
    (h3 : List.Pairwise (fun a b : List Nat × List Nat =>
      case_insensitive_compare a.1 b.1 < 0) recs) :
    rewrite_receipts_to_file (load_receipts (render_file recs)) = render_file recs := by
  unfold load_receipts split_lines
  rw [split_render recs _ h1 (le_refl _)]
  rw [parse_lines_of recs 0 [] h1]
  rw [load_pure_sorted recs 0 [] h2 (by simp) h3 (by simp)]
  rw [List.nil_append]
  exact rewrite_recs_with_ids recs 0

/-- Claim C5, witness for the amended theorem at a concrete input. -/
theorem C5_witness :
    (∀ p ∈ [([65], [120]), ([66], [121])], framed_record p) ∧
    (∀ p ∈ [([65], [120]), ([66], [121])], good_name p.1) ∧
    List.Pairwise (fun a b : List Nat × List Nat =>
      case_insensitive_compare a.1 b.1 < 0) [([65], [120]), ([66], [121])] ∧
    rewrite_receipts_to_file (load_receipts (render_file [([65], [120]), ([66], [121])])) =
      render_file [([65], [120]), ([66], [121])] :=
  ⟨by decide, by decide, by decide,
    C5_amended [([65], [120]), ([66], [121])] (by decide) (by decide) (by decide)⟩

/-! ### Claim C6 -/

/-- Claim C6, counterexample.  The claim states that rejecting an empty
name is `create_receipt`'s responsibility and that adding an empty name
is a no-op.  In the code the emptiness check lives in `run_menu`
(src/main.c:245), not in `create_receipt`: called with an empty name,
`create_receipt` inserts an empty-named entry, consumes id 0, and
appends a record to the store. -/
theorem C6_cex :
    (create_receipt ⟨[], 0⟩ [] [120]).1.list = [⟨0, [], [120]⟩] ∧
    (create_receipt ⟨[], 0⟩ [] [120]).1.next_id = 1 ∧
    (create_receipt ⟨[], 0⟩ [] [120]).2 = FileOp.append [] [120] := by decide

/-- Claim C6, amended.  The empty-name validation lives in the menu,
not in the Catalog: on the menu's add path, when the name is empty
after trimming line terminators, `create_receipt` is never called and
nothing at all happens — the list is unchanged, no id is consumed, and
no file operation occurs.  `create_receipt` itself performs no
emptiness check. -/
theorem C6_amended (s : CatalogState) (raw_name raw_receipt : List Nat)
    (h : trim_line (raw_name.take 29) = []) :
    menu_add s raw_name raw_receipt = (s, FileOp.none) := by
  simp [menu_add, h]

/-- Claim C6, witness for the amended theorem at a concrete input. -/
theorem C6_witness :
    trim_line (([10] : List Nat).take 29) = [] ∧
    menu_add ⟨[⟨0, [97], [98]⟩], 1⟩ [10] [121] = (⟨[⟨0, [97], [98]⟩], 1⟩, FileOp.none) :=
  ⟨by decide, C6_amended ⟨[⟨0, [97], [98]⟩], 1⟩ [10] [121] (by decide)⟩

/-! ### Claim C7 -/

/-- Claim C7, counterexample.  The claim states that across one process
lifetime the issued ids are strictly increasing and never repeat, for
arbitrary catalog states passed as argument.  Passing a catalog holding
id 65534 (the state a load of 65535 records produces) makes the first
call scan and issue 65535; the `uint16_t` post-increment wraps the
counter back to 0, so the second call scans again and issues 65535 a
second time. -/
theorem C7_cex :
    run_gen [[⟨65534, [], []⟩], [⟨65534, [], []⟩]] 0 = [65535, 65535] ∧
    ¬ (run_gen [[⟨65534, [], []⟩], [⟨65534, [], []⟩]] 0).Nodup := by decide

/-- Claim C7, amended.  For every sequence of calls to the id generator
during one process lifetime, with arbitrary catalog states passed as
argument, as long as every issued id stays below 65535 (so the
`uint16_t` counter never wraps), the issued ids are strictly increasing
and no id value is ever issued twice. -/
theorem C7_amended (hs : List (List Receipt))
    (hb : ∀ n ∈ run_gen hs 0, n < 65535) :
    List.Chain' (· < ·) (run_gen hs 0) ∧ (run_gen hs 0).Nodup := by
  have hc := run_gen_chain hs 0 hb
  refine ⟨hc, ?_⟩
  exact (List.chain'_iff_pairwise.mp hc).imp Nat.ne_of_lt

/-- Claim C7, witness for the amended theorem at a concrete input. -/
theorem C7_witness :
    (∀ n ∈ run_gen [[⟨5, [], []⟩], [⟨5, [], []⟩]] 0, n < 65535) ∧
    (List.Chain' (· < ·) (run_gen [[⟨5, [], []⟩], [⟨5, [], []⟩]] 0) ∧
      (run_gen [[⟨5, [], []⟩], [⟨5, [], []⟩]] 0).Nodup) :=
  ⟨by decide, C7_amended [[⟨5, [], []⟩], [⟨5, [], []⟩]] (by decide)⟩

/-! ### Claim C8 -/

/-- Claim C8.  For every well-formed store file of framed records, load
assigns ids 0, 1, 2, ... in file order — the loaded list is a
permutation of the records paired with their sequential ids — and the
loaded list is sorted under the comparator, every adjacent pair
comparing at most zero.  In particular the file holding "Banana" then
"Apple pie" loads to `[(1, "Apple pie"), (0, "Banana")]`. -/
theorem C8_load :
    (∀ recs : List (List Nat × List Nat), (∀ p ∈ recs, framed_record p) →
      List.Perm (load_receipts (render_file recs)) (recs_with_ids recs 0) ∧
      List.Chain' name_le (load_receipts (render_file recs))) ∧
    load_receipts (render_file [([66, 97, 110, 97, 110, 97], [120]),
      ([65, 112, 112, 108, 101, 32, 112, 105, 101], [121])]) =
      [⟨1, [65, 112, 112, 108, 101, 32, 112, 105, 101], [121]⟩,
       ⟨0, [66, 97, 110, 97, 110, 97], [120]⟩] := by
  constructor
  · intro recs h
    unfold load_receipts split_lines
    rw [split_render recs _ h (le_refl _), parse_lines_of recs 0 [] h]
    constructor
    · simpa using load_pure_perm recs 0 []
    · exact chain'_load_pure recs 0 [] List.chain'_nil
  · decide

/-- Claim C8, witness at a concrete input. -/
theorem C8_witness :
    (∀ p ∈ [([66], [120]), ([65], [121])], framed_record p) ∧
    (List.Perm (load_receipts (render_file [([66], [120]), ([65], [121])]))
      (recs_with_ids [([66], [120]), ([65], [121])] 0) ∧
    List.Chain' name_le (load_receipts (render_file [([66], [120]), ([65], [121])]))) :=
  ⟨by decide, C8_load.1 [([66], [120]), ([65], [121])] (by decide)⟩

/-! ### Claim C9 -/

/-- Claim C9.  In any run of the generator in which no issued id
reaches 65535 (the claim's "before wraparound"), the counter is
strictly positive on entry to every call after the first, and the
high-water-mark scan branch runs at most once in the whole run: issuing
a legitimate id 0 leaves the counter at 1, not 0, because the increment
happens after the returned value is taken, so the zero-sentinel
collision does not occur. -/
theorem C9_gen (hs : List (List Receipt))
    (hb : ∀ e ∈ gen_trace hs 0, e.2.2 < 65535) :
    (gen_trace hs 0).countP (fun e => e.2.1) ≤ 1 ∧
      ∀ e ∈ (gen_trace hs 0).tail, 0 < e.1 := by
  cases hs with
  | nil => simp [gen_trace]
  | cons h t =>
    have hn : (get_new_id h 0).1 < 65535 := by
      have h2 := hb (0, decide ((0 : Nat) = 0 ∧ h ≠ []), (get_new_id h 0).1)
        (by simp [gen_trace])
      simpa using h2
    have hc2 : (get_new_id h 0).2 = (get_new_id h 0).1 + 1 := by
      rw [get_new_id_snd]
      exact Nat.mod_eq_of_lt (by omega)
    obtain ⟨p1, p2⟩ := gen_trace_no_rescan t (get_new_id h 0).2 (by omega)
      (fun e he => hb e (by simp [gen_trace, he]))
    constructor
    · simp only [gen_trace, List.countP_cons, p2]
      split <;> omega
    · simpa [gen_trace] using p1

/-- Claim C9, witness at a concrete input: the first call scans a
catalog holding id 5 and issues 6, the second call issues 7 with no
second scan. -/
theorem C9_witness :
    (∀ e ∈ gen_trace [[⟨5, [], []⟩], [⟨5, [], []⟩]] 0, e.2.2 < 65535) ∧
    ((gen_trace [[⟨5, [], []⟩], [⟨5, [], []⟩]] 0).countP (fun e => e.2.1) ≤ 1 ∧
      ∀ e ∈ (gen_trace [[⟨5, [], []⟩], [⟨5, [], []⟩]] 0).tail, 0 < e.1) :=
  ⟨by decide, C9_gen [[⟨5, [], []⟩], [⟨5, [], []⟩]] (by decide)⟩

/-! ### Claim C10 -/

/-- Claim C10.  For every non-empty catalog and every id held by no
entry, delete returns the list unchanged and performs no file
operation at all: unlike the update path, the not-found branch of
delete never opens the store. -/
theorem C10_delete (head : List Receipt) (rid : Nat) (hne : head ≠ [])
    (h : ∀ r ∈ head, r.id ≠ rid) :
    delete_receipt head rid = (head, FileOp.none) := by
  cases head with
  | nil => exact absurd rfl hne
  | cons r t =>
    have hany : ((r :: t).any fun x => x.id == rid) = false := by
      rw [List.any_eq_false]
      intro x hx
      simp only [beq_iff_eq]
      exact h x hx
    simp [delete_receipt, hany]

/-- Claim C10, witness at a concrete input. -/
theorem C10_witness :
    (([⟨0, [97], [98]⟩] : List Receipt) ≠ [] ∧
      (∀ r ∈ ([⟨0, [97], [98]⟩] : List Receipt), r.id ≠ 5)) ∧
    delete_receipt [⟨0, [97], [98]⟩] 5 = ([⟨0, [97], [98]⟩], FileOp.none) :=
  ⟨⟨by decide, by decide⟩, C10_delete [⟨0, [97], [98]⟩] 5 (by decide) (by decide)⟩

end Cookbook
